import Mathlib

/-!
Shallow embedding of the minigrep library (src/lib.rs).

Rust strings (`str` / `String`) are modelled as `List Char`; the Rust
iterator of command-line arguments is modelled as a `List String`; the
environment lookup `env::var("IGNORE_CASE")` is modelled as an
`Option String` parameter (`some v` when the variable is set to `v`,
including the empty string, `none` when unset); the filesystem read
`fs::read_to_string` is modelled as a function parameter
`String → Except String (List Char)` whose error value is the description
of the underlying I/O cause.  Printing to standard output is modelled by
returning the list of printed lines as the success payload of `run`.
-/

namespace Minigrep

/-- `matchesAt q l` holds when `q` occurs at the very start of `l`
(the prefix test underlying Rust `str::contains`). -/
def matchesAt : List Char → List Char → Bool
  | [], _ => true
  | _ :: _, [] => false
  | a :: as, b :: bs => a == b && matchesAt as bs

/-- `hasSubstr l q` models Rust `l.contains(q)`: `q` occurs contiguously
somewhere inside `l`. -/
def hasSubstr : List Char → List Char → Bool
  | [], q => matchesAt q []
  | c :: ls, q => matchesAt q (c :: ls) || hasSubstr ls q

/-- The specification-level reading of substring containment:
`q` is an exact contiguous substring of `l`. -/
def IsSubstr (q l : List Char) : Prop := ∃ b a, l = b ++ q ++ a

/-- Remove one trailing carriage return, as Rust `str::lines` does for
each line terminated by `"\r\n"`. -/
def stripCR (l : List Char) : List Char :=
  if l.getLast? = some '\r' then l.dropLast else l

/-- Split on every newline character; always returns at least one part
(the parts between consecutive newlines, in order). -/
def splitNl : List Char → List (List Char)
  | [] => [[]]
  | c :: cs =>
    if c = '\n' then [] :: splitNl cs
    else
      match splitNl cs with
      | [] => [[c]]
      | p :: ps => (c :: p) :: ps

/-- Post-processing of the split parts matching Rust `str::lines`:
every part that was followed by a newline has a trailing `'\r'`
stripped, and a final empty part (from a trailing newline, or from the
empty string) is dropped. -/
def rlinesAux : List (List Char) → List (List Char)
  | [] => []
  | [p] => if p = [] then [] else [p]
  | p :: q :: ps => stripCR p :: rlinesAux (q :: ps)

/-- Model of Rust `contents.lines()` as used by `search` and
`search_case_insensitive`. -/
def rlines (s : List Char) : List (List Char) := rlinesAux (splitNl s)

/-- Model of Rust `str::to_lowercase` (ASCII-level lowercase mapping,
applied character by character). -/
def toLowerStr (l : List Char) : List Char := l.map Char.toLower

/-- `search` from src/lib.rs: keep, in order, the lines of `contents`
that contain `query`. -/
def search (query contents : List Char) : List (List Char) :=
  (rlines contents).filter (fun line => hasSubstr line query)

/-- `search_case_insensitive` from src/lib.rs: lowercase the query once,
then keep, in order, the lines whose lowercasing contains it; the
returned lines keep their original case. -/
def search_case_insensitive (query contents : List Char) : List (List Char) :=
  let q := toLowerStr query
  (rlines contents).filter (fun line => hasSubstr (toLowerStr line) q)

/-- `Config` from src/lib.rs. -/
structure Config where
  query : String
  file_path : String
  ignore_case : Bool
  deriving DecidableEq

/-- The two parse failures of `Config::build`; `MissingQuery` stands for
the source error string about not getting a query string, and
`MissingFilePath` for the one about not getting a filepath. -/
inductive ParseError where
  | MissingQuery : ParseError
  | MissingFilePath : ParseError
  deriving DecidableEq

/-- `Config::build` from src/lib.rs.  The first token (the program name)
is discarded; the next token becomes `query` (else `MissingQuery`); the
next becomes `file_path` (else `MissingFilePath`); the remaining tokens
are scanned for a literal `"--ignore-case"`, and otherwise the
`IGNORE_CASE` environment lookup (`env`) decides `ignore_case` by
presence alone. -/
def Config.build (args : List String) (env : Option String) :
    Except ParseError Config :=
  match args.drop 1 with
  | [] => .error .MissingQuery
  | query :: rest =>
    match rest with
    | [] => .error .MissingFilePath
    | file_path :: rest2 =>
      let ignore_case :=
        if rest2.any (fun arg => arg == "--ignore-case") then true
        else env.isSome
      .ok { query := query, file_path := file_path, ignore_case := ignore_case }

/-- The runtime failure of `run`: an I/O error wrapping the description
of the underlying cause. -/
inductive RunError where
  | ioError (cause : String) : RunError
  deriving DecidableEq

/-- `Config::run` from src/lib.rs.  `readFile` models
`fs::read_to_string`; on success the payload is the list of lines
printed to standard output, in order. -/
def Config.run (readFile : String → Except String (List Char))
    (config : Config) : Except RunError (List (List Char)) :=
  match readFile config.file_path with
  | .error cause => .error (.ioError cause)
  | .ok contents =>
    .ok (if config.ignore_case then
          search_case_insensitive config.query.data contents
         else
          search config.query.data contents)

/-! ### Substring lemmas -/

theorem matchesAt_iff (q : List Char) : ∀ l, matchesAt q l = true ↔ ∃ t, l = q ++ t := by
  induction q with
  | nil =>
    intro l
    exact iff_of_true rfl ⟨l, rfl⟩
  | cons a as ih =>
    intro l
    cases l with
    | nil => simp [matchesAt]
    | cons b bs =>
      show (a == b && matchesAt as bs) = true ↔ _
      simp only [Bool.and_eq_true, beq_iff_eq, ih bs, List.cons_append, List.cons.injEq]
      constructor
      · rintro ⟨rfl, t, rfl⟩
        exact ⟨t, rfl, rfl⟩
      · rintro ⟨t, rfl, rfl⟩
        exact ⟨rfl, t, rfl⟩

theorem hasSubstr_iff (l q : List Char) : hasSubstr l q = true ↔ IsSubstr q l := by
  induction l with
  | nil =>
    show matchesAt q [] = true ↔ IsSubstr q []
    rw [matchesAt_iff]
    constructor
    · rintro ⟨t, ht⟩
      exact ⟨[], t, by simpa using ht⟩
    · rintro ⟨b, a, hba⟩
      refine ⟨a, ?_⟩
      have hb : b = [] ∧ q = [] ∧ a = [] := by
        constructor
        · cases b with
          | nil => rfl
          | cons y ys => simp at hba
        · cases b with
          | nil =>
            simp only [List.nil_append] at hba
            cases q with
            | nil => simp_all
            | cons z zs => simp at hba
          | cons y ys => simp at hba
      simp [hb.1, hb.2.1, hb.2.2]
  | cons c ls ih =>
    show (matchesAt q (c :: ls) || hasSubstr ls q) = true ↔ IsSubstr q (c :: ls)
    rw [Bool.or_eq_true, matchesAt_iff, ih]
    constructor
    · rintro (⟨t, ht⟩ | ⟨b, a, hba⟩)
      · exact ⟨[], t, by simpa using ht⟩
      · exact ⟨c :: b, a, by simp [hba]⟩
    · rintro ⟨b, a, hba⟩
      cases b with
      | nil =>
        exact Or.inl ⟨a, by simpa using hba⟩
      | cons y ys =>
        simp only [List.cons_append, List.cons.injEq] at hba
        exact Or.inr ⟨ys, a, hba.2⟩

theorem hasSubstr_nil (l : List Char) : hasSubstr l [] = true := by
  cases l <;> simp [hasSubstr, matchesAt]

theorem hasSubstr_toLower (l q : List Char) (h : hasSubstr l q = true) :
    hasSubstr (toLowerStr l) (toLowerStr q) = true := by
  rw [hasSubstr_iff] at h ⊢
  obtain ⟨b, a, rfl⟩ := h
  exact ⟨toLowerStr b, toLowerStr a, by simp [toLowerStr]⟩

/-! ### Line-splitting lemmas -/

theorem splitNl_ne_nil (c : List Char) : splitNl c ≠ [] := by
  cases c with
  | nil => simp [splitNl]
  | cons x cs =>
    simp only [splitNl]
    split
    · simp
    · split <;> simp

theorem splitNl_append_nl (c : List Char) :
    splitNl (c ++ ['\n']) = splitNl c ++ [[]] := by
  induction c with
  | nil => rfl
  | cons x cs ih =>
    by_cases hx : x = '\n'
    · subst hx
      rw [List.cons_append]
      simp only [splitNl, if_pos rfl, ih]
      simp
    · rw [List.cons_append]
      simp only [splitNl, if_neg hx, ih]
      cases hcs : splitNl cs with
      | nil => exact absurd hcs (splitNl_ne_nil cs)
      | cons p ps => simp

theorem splitNl_append_ch (c : List Char) (x : Char) (hx : x ≠ '\n') :
    ∃ ps p, splitNl c = ps ++ [p] ∧ splitNl (c ++ [x]) = ps ++ [p ++ [x]] := by
  induction c with
  | nil =>
    refine ⟨[], [], rfl, ?_⟩
    simp [splitNl, if_neg hx]
  | cons y cs ih =>
    obtain ⟨ps, p, h1, h2⟩ := ih
    by_cases hy : y = '\n'
    · subst hy
      refine ⟨[] :: ps, p, ?_, ?_⟩
      · simp [splitNl, h1]
      · rw [List.cons_append]
        simp [splitNl, h2]
    · cases ps with
      | nil =>
        refine ⟨[], y :: p, ?_, ?_⟩
        · simp [splitNl, if_neg hy, h1]
        · rw [List.cons_append]
          simp [splitNl, if_neg hy, h2]
      | cons a ps2 =>
        refine ⟨(y :: a) :: ps2, p, ?_, ?_⟩
        · simp [splitNl, if_neg hy, h1]
        · rw [List.cons_append]
          simp [splitNl, if_neg hy, h2]

theorem rlinesAux_cons_of_ne (a : List Char) (l : List (List Char)) (h : l ≠ []) :
    rlinesAux (a :: l) = stripCR a :: rlinesAux l := by
  cases l with
  | nil => exact absurd rfl h
  | cons b bs => rfl

theorem rlinesAux_concat_nil (ps : List (List Char)) (p : List Char)
    (hp : p ≠ []) (hr : p.getLast? ≠ some '\r') :
    rlinesAux ((ps ++ [p]) ++ [[]]) = rlinesAux (ps ++ [p]) := by
  induction ps with
  | nil =>
    show rlinesAux [p, []] = rlinesAux [p]
    simp [rlinesAux, stripCR, if_neg hr, if_neg hp]
  | cons a ps2 ih =>
    rw [List.cons_append, List.cons_append,
      rlinesAux_cons_of_ne a _ (by simp),
      rlinesAux_cons_of_ne a _ (by simp), ih]

theorem rlines_append_nl (c : List Char) (x : Char) (h1 : x ≠ '\n') (h2 : x ≠ '\r') :
    rlines ((c ++ [x]) ++ ['\n']) = rlines (c ++ [x]) := by
  obtain ⟨ps, p, _, hspx⟩ := splitNl_append_ch c x h1
  unfold rlines
  rw [splitNl_append_nl, hspx]
  refine rlinesAux_concat_nil ps (p ++ [x]) (by simp) ?_
  rw [List.getLast?_concat]
  simp [h2]

theorem splitNl_sublist (c : List Char) : ∀ p ∈ splitNl c, List.Sublist p c := by
  induction c with
  | nil =>
    intro p hp
    simp only [splitNl, List.mem_singleton] at hp
    subst hp
    exact List.nil_sublist []
  | cons x cs ih =>
    intro p hp
    by_cases hx : x = '\n'
    · subst hx
      simp only [splitNl, if_pos rfl] at hp
      rcases List.mem_cons.mp hp with h | h
      · subst h
        exact List.nil_sublist _
      · exact (ih p h).cons _
    · simp only [splitNl, if_neg hx] at hp
      cases hcs : splitNl cs with
      | nil => exact absurd hcs (splitNl_ne_nil cs)
      | cons p0 ps0 =>
        simp only [hcs] at hp
        rcases List.mem_cons.mp hp with h | h
        · subst h
          exact (ih p0 (by rw [hcs]; exact List.mem_cons_self _ _)).cons₂ x
        · exact (ih p (by rw [hcs]; exact List.mem_cons_of_mem _ h)).cons x

theorem stripCR_sublist (p : List Char) : List.Sublist (stripCR p) p := by
  unfold stripCR
  split
  · exact List.dropLast_sublist p
  · exact List.Sublist.refl p

theorem rlinesAux_mem (ps : List (List Char)) (l : List Char) (h : l ∈ rlinesAux ps) :
    ∃ p ∈ ps, List.Sublist l p := by
  induction ps with
  | nil => simp [rlinesAux] at h
  | cons a ps2 ih =>
    cases ps2 with
    | nil =>
      simp only [rlinesAux] at h
      split at h
      · simp at h
      · rw [List.mem_singleton] at h
        refine ⟨a, List.mem_cons_self _ _, ?_⟩
        rw [h]
    | cons b ps3 =>
      rw [rlinesAux_cons_of_ne a _ (by simp)] at h
      rcases List.mem_cons.mp h with h | h
      · exact ⟨a, List.mem_cons_self _ _, h ▸ stripCR_sublist a⟩
      · obtain ⟨p, hp, hl⟩ := ih h
        exact ⟨p, List.mem_cons_of_mem a hp, hl⟩

theorem rlines_sublist (c l : List Char) (h : l ∈ rlines c) : List.Sublist l c := by
  obtain ⟨p, hp, hl⟩ := rlinesAux_mem (splitNl c) l h
  exact hl.trans (splitNl_sublist c p hp)

theorem toLowerStr_fixed (l : List Char) (h : ∀ ch ∈ l, Char.toLower ch = ch) :
    toLowerStr l = l := by
  induction l with
  | nil => rfl
  | cons c ls ih =>
    have hc := h c (List.mem_cons_self _ _)
    have ihh := ih (fun ch hch => h ch (List.mem_cons_of_mem _ hch))
    simp only [toLowerStr, List.map_cons, hc]
    simp only [toLowerStr] at ihh
    rw [ihh]

/-! ### Config.build helper -/

theorem build_after_positionals (prog q fp : String) (rest : List String)
    (env : Option String)
    (h : rest.any (fun arg => arg == "--ignore-case") = false) :
    Config.build (prog :: q :: fp :: rest) env =
      .ok { query := q, file_path := fp, ignore_case := env.isSome } := by
  simp [Config.build, h]

/-! ### Claim theorems -/

/-- Claim C1: every line in `search query contents` contains `query` as an
exact substring; every line of `contents` containing `query` as an exact
substring appears in the result; and the result is an order-preserving
selection (a sublist) of the lines of `contents`. -/
theorem search_substring_law (q c : List Char) :
    (∀ l ∈ search q c, IsSubstr q l) ∧
    (∀ l ∈ rlines c, IsSubstr q l → l ∈ search q c) ∧
    List.Sublist (search q c) (rlines c) := by
  refine ⟨?_, ?_, List.filter_sublist _⟩
  · intro l hl
    have hm := List.mem_filter.mp hl
    exact (hasSubstr_iff l q).mp hm.2
  · intro l hl hsub
    exact List.mem_filter.mpr ⟨hl, (hasSubstr_iff l q).mpr hsub⟩

/-- Witness for C1 at a concrete input. -/
theorem search_substring_law_w :
    IsSubstr "du".data "duct".data ∧ "duct".data ∈ search "du".data "duct\nxyz".data := by
  constructor
  · exact (search_substring_law "du".data "duct\nxyz".data).1 "duct".data (by decide)
  · exact (search_substring_law "du".data "duct\nxyz".data).2.1 "duct".data (by decide)
      ⟨[], "ct".data, by decide⟩

/-- Claim C2: the case-sensitive result is an order-preserving sublist of
the case-insensitive result on the same query and contents. -/
theorem search_ci_superset (q c : List Char) :
    List.Sublist (search q c) (search_case_insensitive q c) := by
  simp only [search, search_case_insensitive]
  exact List.monotone_filter_right _ (fun l hl => hasSubstr_toLower l q hl)

/-- Claim C3: when the file read fails, `run` returns an `ioError`
wrapping the underlying cause, and produces no output (no `ok` payload of
printed lines). -/
theorem run_read_failure (readFile : String → Except String (List Char))
    (config : Config) (cause : String)
    (h : readFile config.file_path = .error cause) :
    Config.run readFile config = .error (RunError.ioError cause) ∧
    ∀ out, Config.run readFile config ≠ .ok out := by
  have hrun : Config.run readFile config = .error (RunError.ioError cause) := by
    unfold Config.run
    rw [h]
  refine ⟨hrun, fun out hout => ?_⟩
  rw [hrun] at hout
  exact Except.noConfusion hout

/-- Witness for C3 at a concrete failing filesystem. -/
theorem run_read_failure_w :
    Config.run (fun _ => .error "No such file or directory")
        { query := "foo", file_path := "bar.txt", ignore_case := false } =
      .error (RunError.ioError "No such file or directory") :=
  (run_read_failure (fun _ => .error "No such file or directory")
    { query := "foo", file_path := "bar.txt", ignore_case := false }
    "No such file or directory" rfl).1

/-- Claim C4: with no token after the discarded program name, `build`
fails with `MissingQuery`; with exactly one such token it fails with
`MissingFilePath`. -/
theorem build_missing_args (args : List String) (env : Option String) :
    (args.drop 1 = [] → Config.build args env = .error ParseError.MissingQuery) ∧
    (∀ q, args.drop 1 = [q] →
      Config.build args env = .error ParseError.MissingFilePath) := by
  constructor
  · intro h
    unfold Config.build
    rw [h]
  · intro q h
    unfold Config.build
    rw [h]

/-- Witness for C4 at the concrete argument sequences of the spec. -/
theorem build_missing_args_w :
    Config.build ["prog"] none = .error ParseError.MissingQuery ∧
    Config.build ["prog", "foo"] none = .error ParseError.MissingFilePath :=
  ⟨(build_missing_args ["prog"] none).1 rfl,
   (build_missing_args ["prog", "foo"] none).2 "foo" rfl⟩

/-- Claim C5: the two concrete parses of the spec, with `IGNORE_CASE`
unset. -/
theorem build_concrete_examples :
    Config.build ["prog", "foo", "bar.txt"] none =
      .ok { query := "foo", file_path := "bar.txt", ignore_case := false } ∧
    Config.build ["prog", "foo", "bar.txt", "--ignore-case"] none =
      .ok { query := "foo", file_path := "bar.txt", ignore_case := true } :=
  ⟨rfl, rfl⟩

/-- Claim C6: when no token after the two positionals is
`"--ignore-case"`, `ignore_case` is exactly the presence of the
`IGNORE_CASE` environment variable, regardless of its value. -/
theorem build_env_presence (prog q fp : String) (rest : List String)
    (env : Option String) (h : ∀ a ∈ rest, a ≠ "--ignore-case") :
    Config.build (prog :: q :: fp :: rest) env =
      .ok { query := q, file_path := fp, ignore_case := env.isSome } := by
  refine build_after_positionals prog q fp rest env ?_
  rw [List.any_eq_false]
  intro a ha
  simpa using h a ha

/-- Witness for C6: the environment variable set to the empty string
still turns the flag on. -/
theorem build_env_presence_w :
    Config.build ["prog", "foo", "bar.txt"] (some "") =
      .ok { query := "foo", file_path := "bar.txt", ignore_case := true } :=
  build_env_presence "prog" "foo" "bar.txt" [] (some "") (by simp)

/-- Claim C7: a `"--ignore-case"` token in the query or file_path
position is consumed as that positional value and does not by itself set
`ignore_case`, which is still decided by the environment lookup. -/
theorem build_flag_positional (prog q fp : String) (rest : List String)
    (env : Option String) (h : ∀ a ∈ rest, a ≠ "--ignore-case") :
    Config.build (prog :: "--ignore-case" :: fp :: rest) env =
      .ok { query := "--ignore-case", file_path := fp, ignore_case := env.isSome } ∧
    Config.build (prog :: q :: "--ignore-case" :: rest) env =
      .ok { query := q, file_path := "--ignore-case", ignore_case := env.isSome } := by
  have hany : rest.any (fun arg => arg == "--ignore-case") = false := by
    rw [List.any_eq_false]
    intro a ha
    simpa using h a ha
  exact ⟨build_after_positionals prog "--ignore-case" fp rest env hany,
    build_after_positionals prog q "--ignore-case" rest env hany⟩

/-- Witness for C7: with the environment unset, the flag token in either
positional slot leaves `ignore_case` false. -/
theorem build_flag_positional_w :
    Config.build ["prog", "--ignore-case", "bar.txt"] none =
      .ok { query := "--ignore-case", file_path := "bar.txt", ignore_case := false } ∧
    Config.build ["prog", "foo", "--ignore-case"] none =
      .ok { query := "foo", file_path := "--ignore-case", ignore_case := false } :=
  build_flag_positional "prog" "foo" "bar.txt" [] none (by simp)

/-- Claim C8: the empty query matches every line, for both search
functions: the result is all lines of the contents, in order. -/
theorem search_empty_query (c : List Char) :
    search [] c = rlines c ∧ search_case_insensitive [] c = rlines c := by
  constructor
  · simp only [search]
    rw [List.filter_eq_self]
    intro l _
    exact hasSubstr_nil l
  · simp only [search_case_insensitive, toLowerStr, List.map_nil]
    rw [List.filter_eq_self]
    intro l _
    exact hasSubstr_nil (l.map Char.toLower)

/-- Counterexample to claim C9 as stated: for contents `"\n"` (which ends
in a newline) the result of `search` with the empty query is one empty
line, while on the terminator-stripped contents `""` it is empty. -/
theorem trailing_newline_cex :
    search [] "\n".data ≠ search [] "".data := by decide

/-- Claim C9, amended: a trailing newline produces no spurious empty
trailing line provided the preceding contents is nonempty and ends in
neither a newline nor a carriage return; and empty contents yields an
empty result for both search functions. -/
theorem trailing_newline_amended (q c : List Char)
    (h0 : c ≠ []) (h1 : c.getLast? ≠ some '\n') (h2 : c.getLast? ≠ some '\r') :
    search q (c ++ ['\n']) = search q c ∧
    search_case_insensitive q (c ++ ['\n']) = search_case_insensitive q c ∧
    search q [] = [] ∧ search_case_insensitive q [] = [] := by
  obtain ⟨c2, x, rfl⟩ := (List.eq_nil_or_concat' c).resolve_left h0
  rw [List.getLast?_concat] at h1 h2
  have hx1 : x ≠ '\n' := by simpa using h1
  have hx2 : x ≠ '\r' := by simpa using h2
  have hr := rlines_append_nl c2 x hx1 hx2
  refine ⟨?_, ?_, rfl, rfl⟩
  · simp only [search, hr]
  · simp only [search_case_insensitive, hr]

/-- Witness for the amended C9 at a concrete input. -/
theorem trailing_newline_amended_w :
    search "a".data ("ab\ncd".data ++ ['\n']) = search "a".data "ab\ncd".data :=
  (trailing_newline_amended "a".data "ab\ncd".data (by decide) (by decide)
    (by decide)).1

/-- Claim C10: on a query and contents all of whose characters are fixed
by lowercasing, the two search functions return the same lines. -/
theorem lowercase_inputs_agree (q c : List Char)
    (hq : ∀ ch ∈ q, Char.toLower ch = ch) (hc : ∀ ch ∈ c, Char.toLower ch = ch) :
    search_case_insensitive q c = search q c := by
  simp only [search_case_insensitive, search]
  rw [toLowerStr_fixed q hq]
  apply List.filter_congr
  intro l hl
  have hlfix : ∀ ch ∈ l, Char.toLower ch = ch :=
    fun ch hch => hc ch ((rlines_sublist c l hl).subset hch)
  rw [toLowerStr_fixed l hlfix]

/-- Witness for C10 at a concrete already-lowercase input. -/
theorem lowercase_inputs_agree_w :
    search_case_insensitive "ab".data "ab\ncd\n12.;".data =
      search "ab".data "ab\ncd\n12.;".data :=
  lowercase_inputs_agree "ab".data "ab\ncd\n12.;".data (by decide) (by decide)

end Minigrep
